import Mathlib

/-!
Verification development for the zookeeper-mq work queue (src/zkmq.py).

The coordination store is modelled as a Store: a finite association list of
item nodes under /queue/items (key = store-assigned sequence number) plus a
finite association list of consumer registrations under /queue/consumers
(key = the sequence suffix that identifies the consumer). Each consumer
registration bundles its two child nodes: the ephemeral active marker
(a Boolean: present or not) and the durable item slot (an Option String:
none when the slot node itself is absent, some d when it holds data d).

Machine-level details follow the pyzookeeper API as the source uses it:
get returns (data, version, ctime); set without a version is unconditional
and fails with NoNode on an absent path; set with an expected version fails
with BadVersion on mismatch; delete with an expected version fails with
BadVersion on mismatch and NoNode on an absent path; sequential create
returns the assigned key and the key counter only ever grows. Times (ctime
and the current clock) are natural numbers in the same unit, as in the spec
interface table.
-/

/-- Errors observable by the queue logic. noNode and badVersion are the two
ZooKeeper exception classes the source handles; typeErr models the Python
TypeError raised when a path is built from a cleared (None) consumer id. -/
inductive Err where
  | noNode
  | badVersion
  | typeErr
  deriving DecidableEq, Repr

/-- An item node under /queue/items: payload data, per-node version counter,
and creation time. -/
structure ItemNode where
  data : String
  version : Nat
  ctime : Nat
  deriving DecidableEq, Repr

/-- One consumer registration under /queue/consumers: whether the ephemeral
active marker exists, and the durable item slot (none = slot node absent,
some d = slot node present holding d). -/
structure ConsReg where
  active : Bool
  slotData : Option String
  deriving DecidableEq, Repr

/-- The coordination-store state used by the queue protocol. -/
structure Store where
  items : List (Nat × ItemNode)
  nextSeq : Nat
  consumers : List (Nat × ConsReg)
  nextCons : Nat
  deriving DecidableEq, Repr

/-- Association lookup by Nat key. -/
def assq {α : Type} (k : Nat) : List (Nat × α) → Option α
  | [] => none
  | p :: ps => if p.1 = k then some p.2 else assq k ps

/-- Read an item node, as zk.get on /queue/items/item-k (none = NoNode). -/
def lookupItem (k : Nat) (s : Store) : Option ItemNode :=
  assq k s.items

/-- Read a consumer registration subtree. -/
def consumerOf (c : Nat) (s : Store) : Option ConsReg :=
  assq c s.consumers

/-- Remove an item node unconditionally (the state effect of a delete that
succeeds; an absent key leaves the store unchanged). -/
def removeItem (k : Nat) (s : Store) : Store :=
  { s with items := s.items.filter (fun p => p.1 != k) }

/-- Conditional delete of an item node by expected version, as
zk.delete(path, version): NoNode if absent, BadVersion on mismatch. -/
def deleteItemV (k v : Nat) (s : Store) : Except Err Store :=
  match lookupItem k s with
  | none => .error .noNode
  | some n => if n.version = v then .ok (removeItem k s) else .error .badVersion

/-- Sequential create of an empty item node, as
zk.create(/queue/items/item-, data = empty, SEQUENCE): returns the assigned
key; the node starts with empty data and version 0. -/
def createItemSeq (now : Nat) (s : Store) : Nat × Store :=
  (s.nextSeq,
   { s with items := s.items ++ [(s.nextSeq, (⟨"", 0, now⟩ : ItemNode))],
            nextSeq := s.nextSeq + 1 })

/-- Overwrite the data of an item node in place, bumping its version (the
state effect of a successful zk.set on that node). -/
def itemUpd (k : Nat) (d : String) : Nat × ItemNode → Nat × ItemNode :=
  fun p => if p.1 = k then (p.1, (⟨d, p.2.version + 1, p.2.ctime⟩ : ItemNode)) else p

def setItemData (k : Nat) (d : String) (s : Store) : Store :=
  { s with items := s.items.map (itemUpd k d) }

/-- Conditional set on an item node by expected version, as
zk.set(path, data, version): NoNode if absent, BadVersion on mismatch. -/
def setItemCond (k : Nat) (d : String) (v : Nat) (s : Store) : Except Err Store :=
  match lookupItem k s with
  | none => .error .noNode
  | some n => if n.version = v then .ok (setItemData k d s) else .error .badVersion

def slotUpd (me : Nat) (d : String) : Nat × ConsReg → Nat × ConsReg :=
  fun p => if p.1 = me then (p.1, (⟨p.2.active, some d⟩ : ConsReg)) else p

/-- Unconditional zk.set on the item slot of consumer me: none = the slot
node (or the whole registration) is absent, so the call raises NoNode. -/
def setSlot (me : Nat) (d : String) (s : Store) : Option Store :=
  match consumerOf me s with
  | none => none
  | some r =>
    match r.slotData with
    | none => none
    | some _ => some { s with consumers := s.consumers.map (slotUpd me d) }

/-- Insert into a sorted list of keys. -/
def insNat (x : Nat) : List Nat → List Nat
  | [] => [x]
  | y :: ys => if x ≤ y then x :: y :: ys else y :: insNat x ys

/-- Insertion sort over keys: the source sorts the fixed-width child names
of /queue/items, which coincides with numeric order on the sequence keys. -/
def sortNat : List Nat → List Nat
  | [] => []
  | x :: xs => insNat x (sortNat xs)

/-- Children listing of /queue/items in sorted order, as
sorted(zk.get_children(/queue/items)). -/
def listItems (s : Store) : List Nat :=
  sortNat (s.items.map Prod.fst)

/-- Children listing of /queue/consumers. -/
def listConsumers (s : Store) : List Nat :=
  s.consumers.map Prod.fst

/-- Consumer._register (src/zkmq.py lines 117-124): sequential create of the
registration node (assigning the identity), then create of the ephemeral
active marker and of the durable, initially empty item slot. -/
def registerOp (s : Store) : Nat × Store :=
  (s.nextCons,
   { s with consumers := s.consumers ++ [(s.nextCons, (⟨true, some ""⟩ : ConsReg))],
            nextCons := s.nextCons + 1 })

/-- Well-formedness of a store: item keys are unique and below the sequence
counter (the store never reassigns a sequence suffix), a populated item node
has a nonzero version (it was created empty at version 0 and its payload
write bumped the version), and consumer keys are unique and below their
counter. Every state reachable by the protocol from an empty tree satisfies
this. -/
def wfStore (s : Store) : Prop :=
  (s.items.map Prod.fst).Nodup ∧
  (∀ k ∈ s.items.map Prod.fst, k < s.nextSeq) ∧
  (∀ p ∈ s.items, p.2.data ≠ "" → p.2.version ≠ 0) ∧
  (s.consumers.map Prod.fst).Nodup ∧
  (∀ k ∈ s.consumers.map Prod.fst, k < s.nextCons)

instance (s : Store) : Decidable (wfStore s) := by
  unfold wfStore; infer_instance

/-- Result of one Consumer._move attempt: won d models "return data",
lost models "return None", errR e models the attempt raising exception e
out of the method. -/
inductive MRes where
  | won (d : String)
  | lost
  | errR (e : Err)
  deriving DecidableEq, Repr

/-- Interference holes around the store calls of one move attempt: e1 runs
between the initial read and the following call, e2 between the slot write
and the conditional delete, e3 before the slot rollback in the NoNode
handler. Each hole stands for the aggregate effect of every other actor in
that window; the identity function means no interference. -/
structure EnvT where
  e1 : Store → Store
  e2 : Store → Store
  e3 : Store → Store

/-- The no-interference window assignment. -/
def idT : EnvT := ⟨id, id, id⟩

/-- Consumer._move (src/zkmq.py lines 129-153) for consumer me on source
item src, with interference holes t. Mirrors the source: read the item
(data and stat); if data is non-empty, unconditionally write it into the
own item slot, then delete the source conditioned on the version just read;
a NoNode from the read, the write, or the delete is handled by writing the
empty string into the own slot and returning None; a BadVersion from the
delete is re-raised; an item with empty data is deleted outright when its
ctime is older than now - 300 (the NoNode of that delete being swallowed)
and left untouched otherwise, returning None either way. -/
def moveE (me src now : Nat) (t : EnvT) (s : Store) : MRes × Store :=
  match lookupItem src s with
  | some n =>
    if n.data = "" then
      if n.ctime < now - 300 then
        (.lost, removeItem src (t.e1 s))
      else
        (.lost, s)
    else
      match setSlot me n.data (t.e1 s) with
      | some s2 =>
        match deleteItemV src n.version (t.e2 s2) with
        | .ok s4 => (.won n.data, s4)
        | .error .noNode =>
          match setSlot me "" (t.e3 (t.e2 s2)) with
          | some s5 => (.lost, s5)
          | none => (.errR .noNode, t.e3 (t.e2 s2))
        | .error e => (.errR e, t.e2 s2)
      | none =>
        match setSlot me "" (t.e3 (t.e1 s)) with
        | some s5 => (.lost, s5)
        | none => (.errR .noNode, t.e3 (t.e1 s))
  | none =>
    match setSlot me "" (t.e1 s) with
    | some s5 => (.lost, s5)
    | none => (.errR .noNode, t.e1 s)

/-- Result of a reserve call: the reserved payload, the no-work answer
(Python None) of the non-blocking mode, or a raised exception. -/
inductive RRes where
  | payload (d : String)
  | noWork
  | rerr (e : Err)
  deriving DecidableEq, Repr

/-- One scan over the sorted candidate list inside Consumer._simple_reserve:
try to move each candidate into the own slot; stop with some answer on a
won payload or a raised exception, return none when the pass is exhausted
without either. Interference triples are consumed per candidate, the
identity triple standing in when the list runs out. -/
def passE (me now : Nat) : List Nat → List EnvT → Store → Option RRes × Store
  | [], _, s => (none, s)
  | c :: cs, es, s =>
    match moveE me c now (es.headD idT) s with
    | (.won d, s1) => (some (.payload d), s1)
    | (.errR e, s1) => (some (.rerr e), s1)
    | (.lost, s1) => passE me now cs es.tail s1

/-- Consumer._simple_reserve (src/zkmq.py lines 178-185) with the consumer
identity as Python leaves it (some me while registered, none after close):
loop forever: list and sort the children of /queue/items; on an empty list
return None (no work); otherwise attempt each candidate in order, returning
a won payload, propagating a raised exception, and starting the loop over
when the whole pass yields nothing. fuel bounds the number of passes the
model observes; the first component is none when the loop is still running
after that many passes. Building a candidate path from a cleared identity
raises TypeError before any store call. -/
def simpleReserveE (id? : Option Nat) (now : Nat) :
    Nat → List EnvT → Store → Option RRes × Store
  | 0, _, s => (none, s)
  | fuel + 1, es, s =>
    match listItems s with
    | [] => (some .noWork, s)
    | c :: cs =>
      match id? with
      | none => (some (.rerr .typeErr), s)
      | some me =>
        match passE me now (c :: cs) es s with
        | (some r, s1) => (some r, s1)
        | (none, s1) => simpleReserveE id? now fuel es s1

/-- Consumer.done (src/zkmq.py lines 187-188): zk.set of the empty string
on the own item slot; a cleared identity raises TypeError first. -/
def doneC (id? : Option Nat) (s : Store) : Option Err × Store :=
  match id? with
  | none => (some .typeErr, s)
  | some me =>
    match setSlot me "" s with
    | some s1 => (none, s1)
    | none => (some .noNode, s)

/-- Consumer.close (src/zkmq.py lines 190-193): delete, in order, the item
slot, the active marker, and the registration node, then clear the
identity. A cleared identity raises TypeError while building the paths,
before any delete; a missing node makes the corresponding delete raise
NoNode, aborting the sequence with the identity still set. The third
component is the identity after the call. -/
def closeC (id? : Option Nat) (s : Store) : Option Err × Store × Option Nat :=
  match id? with
  | none => (some .typeErr, s, none)
  | some me =>
    match consumerOf me s with
    | none => (some .noNode, s, some me)
    | some r =>
      match r.slotData with
      | none => (some .noNode, s, some me)
      | some _ =>
        let delSlot := fun (p : Nat × ConsReg) =>
          if p.1 = me then (p.1, (⟨p.2.active, none⟩ : ConsReg)) else p
        let s1 := { s with consumers := s.consumers.map delSlot }
        if r.active then
          (none, { s1 with consumers := s1.consumers.filter (fun p => p.1 != me) },
           none)
        else (some .noNode, s1, some me)

/-- Producer.put (src/zkmq.py lines 99-105) under the
retry_on(NoNodeException) decorator (lines 28-42): create a sequential
empty item node, then write the payload into it with expected version 0.
sched records, per attempt, whether interference deletes the freshly
created node before the write (true), making the write raise NoNode, upon
which the decorator re-runs the whole body; when sched is exhausted the
attempt runs without interference. The write on an undisturbed fresh node
(present, version 0) always succeeds; the error fallback branch is
unreachable and returns the pre-write state. -/
def putRun (now : Nat) : List Bool → Store → String → Nat × Store
  | [], s, d =>
    let (k, s1) := createItemSeq now s
    match setItemCond k d 0 s1 with
    | .ok s2 => (k, s2)
    | .error _ => (k, s1)
  | b :: rest, s, d =>
    let (k, s1) := createItemSeq now s
    if b then putRun now rest (removeItem k s1) d
    else
      match setItemCond k d 0 s1 with
      | .ok s2 => (k, s2)
      | .error _ => (k, s1)

/-- GarbageCollector.collect (src/zkmq.py lines 206-210): list the children
of /queue/consumers and immediately break out of the loop over them (the
loop body is a bare break under the comment XXX remove old inactive
consumers). Nothing is read, requeued, or deleted, and the method returns
Python None rather than a count. -/
def collectOp (s : Store) : Option Nat × Store :=
  let children := listConsumers s
  match children with
  | [] => (none, s)
  | _ :: _ => (none, s)

/-- Program counter of Consumer._move viewed as a small-step machine, one
store call per step: atGet before the read; atSet d v before the
unconditional slot write, carrying the data and version the read returned;
atDelete d v before the conditional delete of the source; atRollback before
the slot clear of the NoNode handler; atDrop before the outright delete of
an old empty item; mdone r after the method returned or raised. -/
inductive MovePC where
  | atGet
  | atSet (d : String) (v : Nat)
  | atDelete (d : String) (v : Nat)
  | atRollback
  | atDrop
  | mdone (r : MRes)
  deriving DecidableEq, Repr

/-- One store call of Consumer._move (src/zkmq.py lines 129-153) by
consumer me on source item src. Control transfers follow the source: a
non-empty read proceeds to the slot write then the conditional delete; a
successful delete returns the data; a NoNode from the read, the write, or
the delete jumps to the slot-clearing handler; a BadVersion from the delete
re-raises; an empty read either drops an old item or returns None. -/
def moveStep (me src now : Nat) : MovePC → Store → MovePC × Store
  | .atGet, s =>
    match lookupItem src s with
    | some n =>
      if n.data = "" then
        if n.ctime < now - 300 then (.atDrop, s) else (.mdone .lost, s)
      else (.atSet n.data n.version, s)
    | none => (.atRollback, s)
  | .atSet d v, s =>
    match setSlot me d s with
    | some s1 => (.atDelete d v, s1)
    | none => (.atRollback, s)
  | .atDelete d v, s =>
    match deleteItemV src v s with
    | .ok s1 => (.mdone (.won d), s1)
    | .error .noNode => (.atRollback, s)
    | .error _ => (.mdone (.errR .badVersion), s)
  | .atRollback, s =>
    match setSlot me "" s with
    | some s1 => (.mdone .lost, s1)
    | none => (.mdone (.errR .noNode), s)
  | .atDrop, s => (.mdone .lost, removeItem src s)
  | .mdone r, s => (.mdone r, s)

/-- Whether a move machine still has a store call to perform. -/
def activePC : MovePC → Bool
  | .mdone _ => false
  | _ => true

/-- Steps remaining before the move machine reaches mdone, from any store. -/
def rankPC : MovePC → Nat
  | .atGet => 4
  | .atSet _ _ => 3
  | .atDelete _ _ => 2
  | .atRollback => 1
  | .atDrop => 1
  | .mdone _ => 0

/-- Joint state of two consumers (ids 1 and 2) both running Consumer._move
on the same source item over a shared store. -/
structure Config2 where
  store : Store
  pc1 : MovePC
  pc2 : MovePC
  deriving DecidableEq, Repr

/-- Consumer 1 performs its next store call. -/
def applyL (src now : Nat) (c : Config2) : Config2 :=
  let (p, s) := moveStep 1 src now c.pc1 c.store
  ⟨s, p, c.pc2⟩

/-- Consumer 2 performs its next store call. -/
def applyR (src now : Nat) (c : Config2) : Config2 :=
  let (p, s) := moveStep 2 src now c.pc2 c.store
  ⟨s, c.pc1, p⟩

/-- Interleaved executions of the two move attempts: at each step one of
the consumers that has not yet returned performs its next store call. -/
inductive Reach2 (src now : Nat) : Config2 → Config2 → Prop where
  | refl (c : Config2) : Reach2 src now c c
  | stepL {a b : Config2} : Reach2 src now a b → activePC b.pc1 = true →
      Reach2 src now a (applyL src now b)
  | stepR {a b : Config2} : Reach2 src now a b → activePC b.pc2 = true →
      Reach2 src now a (applyR src now b)

/-- Sum of the steps the two machines still have to take. -/
def rank2 (c : Config2) : Nat := rankPC c.pc1 + rankPC c.pc2

/-- The successor configurations of one interleaving step. -/
def succs2 (src now : Nat) (c : Config2) : List Config2 :=
  (if activePC c.pc1 then [applyL src now c] else []) ++
  (if activePC c.pc2 then [applyR src now c] else [])

/-- The item slot content of consumer c, none when the slot node or the
registration is absent. -/
def slotOf (c : Nat) (s : Store) : Option String :=
  match consumerOf c s with
  | none => none
  | some r => r.slotData

/-- Canonical race: one populated item (payload X, version 1) and two
registered, idle consumers about to run the move step on it. -/
def race0 : Config2 :=
  ⟨⟨[(0, ⟨"X", 1, 0⟩)], 1, [(1, ⟨true, some ""⟩), (2, ⟨true, some ""⟩)], 3⟩,
   .atGet, .atGet⟩

/-- All configurations of the canonical race reachable in exactly n
interleaving steps. -/
def raceFrontier : Nat → List Config2
  | 0 => [race0]
  | n + 1 => (raceFrontier n).flatMap (succs2 0 600)

/-- Events of one observed run of Consumer._blocking_reserve on a store
that no other actor changes: lock acquisitions and the children listing
(with the one-shot watch) of each iteration of the outer while loop, the
move attempt on the first candidate, and then either the release-and-return
on a won payload, the condition wait after a candidate that yielded
nothing, or the exception that propagates. -/
inductive BEv where
  | acq
  | lst (cs : List Nat)
  | moveAt (src : Nat)
  | waited
  | rel
  | ret (d : String)
  | exn (e : Err)
  deriving DecidableEq, Repr

/-- Consumer._blocking_reserve (src/zkmq.py lines 161-176) observed on a
static store (no producer ever runs, so a watch never fires and a
condition wait never wakes). Each iteration of the while True loop
acquires the condition lock and lists the children with the watch; on an
empty list the for loop has no iterations and the while loop immediately
repeats, acquiring again without waiting or releasing (the lock is
reentrant); on a non-empty list the first candidate is attempted: a won
payload is returned after releasing, anything else reaches the cv.wait()
inside the for body, which on a static store never returns. fuel bounds
the observed while iterations. -/
def blockingTrace (id? : Option Nat) (now : Nat) (s : Store) : Nat → List BEv
  | 0 => []
  | fuel + 1 =>
    let cs := listItems s
    .acq :: .lst cs ::
      (match cs with
       | [] => blockingTrace id? now s fuel
       | c :: _ =>
         match id? with
         | none => [.exn .typeErr]
         | some me =>
           match moveE me c now idT s with
           | (.won d, _) => [.moveAt c, .rel, .ret d]
           | (.lost, _) => [.moveAt c, .waited]
           | (.errR e, _) => [.moveAt c, .exn e])


section Plumbing

variable {α : Type}

theorem assq_mem {k : Nat} {v : α} {l : List (Nat × α)}
    (h : assq k l = some v) : (k, v) ∈ l := by
  induction l with
  | nil => simp [assq] at h
  | cons p ps ih =>
    by_cases hp : p.1 = k
    · rw [assq, if_pos hp] at h
      have hv : p.2 = v := by injection h
      have hpv : p = (k, v) := by
        cases p
        simp_all
      rw [hpv]
      exact List.mem_cons_self _ _
    · rw [assq, if_neg hp] at h
      exact List.mem_cons_of_mem _ (ih h)

theorem mem_keys_exists_assq {k : Nat} {l : List (Nat × α)}
    (h : k ∈ l.map Prod.fst) : ∃ v, assq k l = some v := by
  induction l with
  | nil => simp at h
  | cons p ps ih =>
    by_cases hp : p.1 = k
    · exact ⟨p.2, by simp [assq, hp]⟩
    · have h2 : k ∈ ps.map Prod.fst := by
        rcases List.mem_map.mp h with ⟨q, hq, hqk⟩
        rcases List.mem_cons.mp hq with rfl | hq2
        · exact absurd hqk hp
        · exact List.mem_map.mpr ⟨q, hq2, hqk⟩
      rcases ih h2 with ⟨v, hv⟩
      exact ⟨v, by simp [assq, hp, hv]⟩

theorem assq_of_forall_ne {k : Nat} {l : List (Nat × α)}
    (h : ∀ p ∈ l, p.1 ≠ k) : assq k l = none := by
  induction l with
  | nil => rfl
  | cons p ps ih =>
    have hp : p.1 ≠ k := h p (List.mem_cons_self _ _)
    rw [assq, if_neg hp]
    exact ih fun q hq => h q (List.mem_cons_of_mem _ hq)

theorem assq_append_of_some {k : Nat} {v : α} {l l2 : List (Nat × α)}
    (h : assq k l = some v) : assq k (l ++ l2) = some v := by
  induction l with
  | nil => simp [assq] at h
  | cons p ps ih =>
    by_cases hp : p.1 = k
    · rw [assq, if_pos hp] at h
      rw [List.cons_append, assq, if_pos hp]
      exact h
    · rw [assq, if_neg hp] at h
      rw [List.cons_append, assq, if_neg hp]
      exact ih h

theorem assq_append_of_none {k : Nat} {l l2 : List (Nat × α)}
    (h : assq k l = none) : assq k (l ++ l2) = assq k l2 := by
  induction l with
  | nil => rfl
  | cons p ps ih =>
    by_cases hp : p.1 = k
    · rw [assq, if_pos hp] at h
      exact absurd h (by simp)
    · rw [assq, if_neg hp] at h
      rw [List.cons_append, assq, if_neg hp]
      exact ih h

theorem assq_map_self {k : Nat} {f : Nat × α → Nat × α} {g : α → α}
    (l : List (Nat × α))
    (hself : ∀ p, p.1 = k → f p = (p.1, g p.2))
    (hid : ∀ p, p.1 ≠ k → f p = p) :
    assq k (l.map f) = (assq k l).map g := by
  induction l with
  | nil => rfl
  | cons p ps ih =>
    by_cases hp : p.1 = k
    · rw [List.map_cons, hself p hp, assq, assq, if_pos hp]
      simp [hp]
    · rw [List.map_cons, hid p hp, assq, assq, if_neg hp, if_neg hp]
      exact ih

theorem assq_map_other {j k : Nat} {f : Nat × α → Nat × α}
    (l : List (Nat × α)) (hj : j ≠ k)
    (hkey : ∀ p, (f p).1 = p.1)
    (hid : ∀ p, p.1 ≠ k → f p = p) :
    assq j (l.map f) = assq j l := by
  induction l with
  | nil => rfl
  | cons p ps ih =>
    by_cases hp : p.1 = k
    · have hpj : p.1 ≠ j := fun hcon => hj (hcon ▸ hp)
      have hfj : (f p).1 ≠ j := by rw [hkey p]; exact hpj
      rw [List.map_cons, assq, assq, if_neg hfj, if_neg hpj]
      exact ih
    · by_cases hpj : p.1 = j
      · rw [List.map_cons, hid p hp, assq, assq, if_pos hpj, if_pos hpj]
      · rw [List.map_cons, hid p hp, assq, assq, if_neg hpj, if_neg hpj]
        exact ih

theorem keys_map_of_key_fixed {f : Nat × α → Nat × α}
    (l : List (Nat × α)) (hkey : ∀ p, (f p).1 = p.1) :
    (l.map f).map Prod.fst = l.map Prod.fst := by
  induction l with
  | nil => rfl
  | cons p ps ih => rw [List.map_cons, List.map_cons, List.map_cons, hkey p, ih]

theorem assq_filter_ne_self (k : Nat) (l : List (Nat × α)) :
    assq k (l.filter (fun p => p.1 != k)) = none := by
  induction l with
  | nil => rfl
  | cons p ps ih =>
    by_cases hp : p.1 = k
    · rw [List.filter_cons]
      simp only [hp, bne_self_eq_false, cond_false, Bool.false_eq_true, if_false]
      exact ih
    · rw [List.filter_cons]
      simp only [bne_iff_ne, ne_eq, hp, not_false_eq_true, if_true]
      rw [assq, if_neg hp]
      exact ih

theorem assq_filter_ne_other {j k : Nat} (l : List (Nat × α)) (h : j ≠ k) :
    assq j (l.filter (fun p => p.1 != k)) = assq j l := by
  induction l with
  | nil => rfl
  | cons p ps ih =>
    by_cases hp : p.1 = k
    · have hpj : p.1 ≠ j := fun hcon => h (hcon ▸ hp)
      rw [List.filter_cons]
      simp only [hp, bne_self_eq_false, cond_false, Bool.false_eq_true, if_false]
      rw [assq, if_neg hpj]
      exact ih
    · rw [List.filter_cons]
      simp only [bne_iff_ne, ne_eq, hp, not_false_eq_true, if_true]
      rw [assq, assq]
      by_cases hpj : p.1 = j
      · rw [if_pos hpj, if_pos hpj]
      · rw [if_neg hpj, if_neg hpj]
        exact ih

theorem mem_insNat {x a : Nat} {l : List Nat} :
    x ∈ insNat a l ↔ x = a ∨ x ∈ l := by
  induction l with
  | nil => simp [insNat]
  | cons y ys ih =>
    by_cases h : a ≤ y
    · simp [insNat, h]
    · simp only [insNat, h, if_false, List.mem_cons, ih]
      tauto

theorem mem_sortNat {x : Nat} {l : List Nat} : x ∈ sortNat l ↔ x ∈ l := by
  induction l with
  | nil => simp [sortNat]
  | cons y ys ih => simp [sortNat, mem_insNat, ih]

theorem insNat_ne_nil (a : Nat) (l : List Nat) : insNat a l ≠ [] := by
  cases l with
  | nil => simp [insNat]
  | cons y ys =>
    by_cases h : a ≤ y <;> simp [insNat, h]

theorem sortNat_eq_nil_iff {l : List Nat} : sortNat l = [] ↔ l = [] := by
  cases l with
  | nil => simp [sortNat]
  | cons y ys => simp [sortNat, insNat_ne_nil]

end Plumbing


theorem listItems_eq_nil_iff {s : Store} : listItems s = [] ↔ s.items = [] := by
  unfold listItems
  rw [sortNat_eq_nil_iff, List.map_eq_nil_iff]

theorem mem_listItems_exists {c : Nat} {s : Store} (h : c ∈ listItems s) :
    ∃ n, lookupItem c s = some n := by
  unfold listItems at h
  rw [mem_sortNat] at h
  exact mem_keys_exists_assq h

theorem lookupItem_removeItem_self (k : Nat) (s : Store) :
    lookupItem k (removeItem k s) = none :=
  assq_filter_ne_self k s.items

theorem lookupItem_removeItem_other {j k : Nat} (s : Store) (h : j ≠ k) :
    lookupItem j (removeItem k s) = lookupItem j s :=
  assq_filter_ne_other s.items h

theorem consumerOf_removeItem (c k : Nat) (s : Store) :
    consumerOf c (removeItem k s) = consumerOf c s := rfl

theorem slotUpd_key (me : Nat) (d : String) (p : Nat × ConsReg) :
    (slotUpd me d p).1 = p.1 := by
  unfold slotUpd
  by_cases hp : p.1 = me <;> simp [hp]

theorem itemUpd_key (k : Nat) (d : String) (p : Nat × ItemNode) :
    (itemUpd k d p).1 = p.1 := by
  unfold itemUpd
  by_cases hp : p.1 = k <;> simp [hp]

/-- Full postcondition of a slot write that finds the slot node present. -/
theorem setSlot_ok {me : Nat} {a : Bool} {x : String} {s : Store} (d : String)
    (h : consumerOf me s = some ⟨a, some x⟩) :
    ∃ s1, setSlot me d s = some s1 ∧
      s1.items = s.items ∧ s1.nextSeq = s.nextSeq ∧ s1.nextCons = s.nextCons ∧
      consumerOf me s1 = some ⟨a, some d⟩ ∧
      (∀ c, c ≠ me → consumerOf c s1 = consumerOf c s) ∧
      s1.consumers.map Prod.fst = s.consumers.map Prod.fst := by
  refine ⟨{ s with consumers := s.consumers.map (slotUpd me d) }, ?_, rfl, rfl, rfl,
    ?_, ?_, ?_⟩
  · unfold setSlot
    rw [h]
  · show assq me (s.consumers.map (slotUpd me d)) = _
    rw [assq_map_self (g := fun r => ⟨r.active, some d⟩) s.consumers
      (fun p hp => by simp [slotUpd, hp]) (fun p hp => by simp [slotUpd, hp])]
    unfold consumerOf at h
    rw [h]
    rfl
  · intro c hc
    show assq c (s.consumers.map (slotUpd me d)) = _
    exact assq_map_other s.consumers hc (slotUpd_key me d)
      (fun p hp => by simp [slotUpd, hp])
  · exact keys_map_of_key_fixed s.consumers (slotUpd_key me d)

/-- Well-formedness transfers along a state with the same items, counters,
and consumer keys. -/
theorem wf_of_eq_parts {s s1 : Store} (hwf : wfStore s)
    (hi : s1.items = s.items) (hns : s1.nextSeq = s.nextSeq)
    (hck : s1.consumers.map Prod.fst = s.consumers.map Prod.fst)
    (hnc : s1.nextCons = s.nextCons) : wfStore s1 := by
  obtain ⟨h1, h2, h3, h4, h5⟩ := hwf
  exact ⟨by rw [hi]; exact h1, by rw [hi, hns]; exact h2, by rw [hi]; exact h3,
    by rw [hck]; exact h4, by rw [hck, hnc]; exact h5⟩

theorem wf_setSlot {me : Nat} {a : Bool} {x : String} {d : String} {s s1 : Store}
    (hc : consumerOf me s = some ⟨a, some x⟩)
    (h : setSlot me d s = some s1) (hwf : wfStore s) : wfStore s1 := by
  rcases setSlot_ok d hc with ⟨s2, hs2, hi, hns, hnc, _, _, hck⟩
  rw [h] at hs2
  obtain rfl : s1 = s2 := by injection hs2
  exact wf_of_eq_parts hwf hi hns hck hnc

theorem wf_removeItem {s : Store} (k : Nat) (hwf : wfStore s) :
    wfStore (removeItem k s) := by
  obtain ⟨h1, h2, h3, h4, h5⟩ := hwf
  refine ⟨?_, ?_, ?_, h4, h5⟩
  · exact List.Nodup.sublist (List.Sublist.map _ (List.filter_sublist _)) h1
  · intro k2 hk2
    rcases List.mem_map.mp hk2 with ⟨q, hq, hfq⟩
    exact h2 k2 (List.mem_map.mpr ⟨q, List.mem_of_mem_filter hq, hfq⟩)
  · exact fun p hp => h3 p (List.mem_of_mem_filter hp)

theorem wf_setItemData {k : Nat} {d : String} {s : Store} (hwf : wfStore s) :
    wfStore (setItemData k d s) := by
  obtain ⟨h1, h2, h3, h4, h5⟩ := hwf
  refine ⟨?_, ?_, ?_, h4, h5⟩
  · show ((s.items.map (itemUpd k d)).map Prod.fst).Nodup
    rw [keys_map_of_key_fixed s.items (itemUpd_key k d)]
    exact h1
  · show ∀ k2 ∈ (s.items.map (itemUpd k d)).map Prod.fst, k2 < s.nextSeq
    rw [keys_map_of_key_fixed s.items (itemUpd_key k d)]
    exact h2
  · intro p hp
    rcases List.mem_map.mp hp with ⟨q, hq, hfq⟩
    by_cases hqm : q.1 = k
    · have : p = (q.1, (⟨d, q.2.version + 1, q.2.ctime⟩ : ItemNode)) := by
        rw [← hfq]
        simp [itemUpd, hqm]
      rw [this]
      intro _
      simp
    · have : p = q := by
        rw [← hfq]
        simp [itemUpd, hqm]
      rw [this]
      exact h3 q hq

theorem wf_createItemSeq {now : Nat} {s : Store} (hwf : wfStore s) :
    wfStore (createItemSeq now s).2 := by
  obtain ⟨h1, h2, h3, h4, h5⟩ := hwf
  refine ⟨?_, ?_, ?_, h4, h5⟩
  · show ((s.items ++ [(s.nextSeq, (⟨"", 0, now⟩ : ItemNode))]).map Prod.fst).Nodup
    rw [List.map_append]
    rw [List.nodup_append]
    refine ⟨h1, by simp, ?_⟩
    intro a ha hb
    simp only [List.map_cons, List.map_nil, List.mem_singleton] at hb
    have := h2 a ha
    omega
  · show ∀ k ∈ (s.items ++ [(s.nextSeq, (⟨"", 0, now⟩ : ItemNode))]).map Prod.fst,
      k < s.nextSeq + 1
    rw [List.map_append]
    intro k hk
    rcases List.mem_append.mp hk with hk1 | hk2
    · have := h2 k hk1
      omega
    · simp only [List.map_cons, List.map_nil, List.mem_singleton] at hk2
      omega
  · intro p hp
    rcases List.mem_append.mp hp with hp1 | hp2
    · exact h3 p hp1
    · simp only [List.mem_singleton] at hp2
      subst hp2
      simp

theorem wf_registerOp {s : Store} (hwf : wfStore s) :
    wfStore (registerOp s).2 := by
  obtain ⟨h1, h2, h3, h4, h5⟩ := hwf
  refine ⟨h1, h2, h3, ?_, ?_⟩
  · show ((s.consumers ++ [(s.nextCons, (⟨true, some ""⟩ : ConsReg))]).map Prod.fst).Nodup
    rw [List.map_append]
    rw [List.nodup_append]
    refine ⟨h4, by simp, ?_⟩
    intro a ha hb
    simp only [List.map_cons, List.map_nil, List.mem_singleton] at hb
    have := h5 a ha
    omega
  · show ∀ k ∈ (s.consumers ++ [(s.nextCons, (⟨true, some ""⟩ : ConsReg))]).map Prod.fst,
      k < s.nextCons + 1
    rw [List.map_append]
    intro k hk
    rcases List.mem_append.mp hk with hk1 | hk2
    · have := h5 k hk1
      omega
    · simp only [List.map_cons, List.map_nil, List.mem_singleton] at hk2
      omega

/-- Sound interference for the windows inside one store operation of
consumer me: it keeps the store well formed, never shrinks the sequence
counter, never touches the registration subtree of me, can at most delete
(never alter) an item node that already holds a payload, and never
recreates an item node at an already consumed sequence key. The composition
of any steps the other actors of this system can take has these properties
(sysStep_envOkF below). -/
def EnvOkF (me : Nat) (f : Store → Store) : Prop :=
  ∀ s, wfStore s →
    wfStore (f s) ∧
    s.nextSeq ≤ (f s).nextSeq ∧
    (∀ r, consumerOf me s = some r → consumerOf me (f s) = some r) ∧
    (∀ k n, lookupItem k s = some n → n.data ≠ "" →
       lookupItem k (f s) = some n ∨ lookupItem k (f s) = none) ∧
    (∀ k, k < s.nextSeq → lookupItem k s = none → lookupItem k (f s) = none)

theorem envOkF_id (me : Nat) : EnvOkF me id := by
  intro s hwf
  exact ⟨hwf, le_refl _, fun r hr => hr, fun k n h _ => Or.inl h, fun k _ h => h⟩

/-- Sound interference in all three windows of one move attempt. -/
def EnvOkT (me : Nat) (t : EnvT) : Prop :=
  EnvOkF me t.e1 ∧ EnvOkF me t.e2 ∧ EnvOkF me t.e3

theorem envOkT_idT (me : Nat) : EnvOkT me idT :=
  ⟨envOkF_id me, envOkF_id me, envOkF_id me⟩

/-- Unfolding of the populated-item path of the move: after the read of a
non-empty item and the unconditional slot write, the outcome is decided by
the conditional delete. -/
theorem moveE_nonempty_unfold {me src now : Nat} {t : EnvT} {s s2 : Store}
    {n : ItemNode}
    (hit : lookupItem src s = some n) (hd : n.data ≠ "")
    (hset : setSlot me n.data (t.e1 s) = some s2) :
    moveE me src now t s =
      match deleteItemV src n.version (t.e2 s2) with
      | .ok s4 => (.won n.data, s4)
      | .error .noNode =>
        (match setSlot me "" (t.e3 (t.e2 s2)) with
         | some s5 => (.lost, s5)
         | none => (.errR .noNode, t.e3 (t.e2 s2)))
      | .error e => (.errR e, t.e2 s2) := by
  simp only [moveE, hit, if_neg hd, hset]

/-- Behavior of one move attempt by a registered consumer whose slot node
exists, under sound interference: the attempt never raises, a won payload
is the non-empty data read and is recorded in the own slot, and a lost
attempt leaves the slot either untouched or cleared to empty. -/
theorem moveE_spec {me src now : Nat} {t : EnvT} {s : Store} {a : Bool}
    {x : String}
    (hwf : wfStore s) (ht : EnvOkT me t)
    (hc : consumerOf me s = some ⟨a, some x⟩) :
    (∀ e, (moveE me src now t s).1 ≠ .errR e) ∧
    (∀ d s1, moveE me src now t s = (.won d, s1) →
       d ≠ "" ∧ wfStore s1 ∧ consumerOf me s1 = some ⟨a, some d⟩) ∧
    (∀ s1, moveE me src now t s = (.lost, s1) →
       wfStore s1 ∧
       (consumerOf me s1 = some ⟨a, some x⟩ ∨
        consumerOf me s1 = some ⟨a, some ""⟩)) := by
  obtain ⟨ht1, ht2, ht3⟩ := ht
  obtain ⟨hwf1, hns1, hcp1, hip1, hnr1⟩ := ht1 s hwf
  cases hit : lookupItem src s with
  | none =>
    have hc1 := hcp1 _ hc
    rcases setSlot_ok "" hc1 with ⟨s5, hset, _, _, _, hcons5, _, hkeys5⟩
    have hmv : moveE me src now t s = (.lost, s5) := by
      simp only [moveE, hit, hset]
    rw [hmv]
    refine ⟨by simp, ?_, ?_⟩
    · intro d s1 h1
      exact absurd h1 (by simp)
    · intro s1 h1
      obtain ⟨-, rfl⟩ : MRes.lost = MRes.lost ∧ s5 = s1 := by
        constructor
        · rfl
        · injection h1 with h1a h1b
      exact ⟨wf_setSlot hc1 hset hwf1, Or.inr hcons5⟩
  | some n =>
    by_cases hd : n.data = ""
    · by_cases hct : n.ctime < now - 300
      · have hmv : moveE me src now t s = (.lost, removeItem src (t.e1 s)) := by
          simp only [moveE, hit, if_pos hd, if_pos hct]
        rw [hmv]
        refine ⟨by simp, ?_, ?_⟩
        · intro d s1 h1
          exact absurd h1 (by simp)
        · intro s1 h1
          injection h1 with h1a h1b
          subst h1b
          rw [consumerOf_removeItem]
          exact ⟨wf_removeItem _ hwf1, Or.inl (hcp1 _ hc)⟩
      · have hmv : moveE me src now t s = (.lost, s) := by
          simp only [moveE, hit, if_pos hd, if_neg hct]
        rw [hmv]
        refine ⟨by simp, ?_, ?_⟩
        · intro d s1 h1
          exact absurd h1 (by simp)
        · intro s1 h1
          injection h1 with h1a h1b
          subst h1b
          exact ⟨hwf, Or.inl hc⟩
    · have hc1 := hcp1 _ hc
      rcases setSlot_ok n.data hc1 with
        ⟨s2, hset, hitems2, hns2, hnc2, hcons2, _, hkeys2⟩
      have hwf2 : wfStore s2 := wf_setSlot hc1 hset hwf1
      obtain ⟨hwf3, hns3, hcp3, hip3, hnr3⟩ := ht2 s2 hwf2
      have hunf := @moveE_nonempty_unfold me src now t s s2 n hit hd hset
      have hsrc2 : lookupItem src s2 = lookupItem src (t.e1 s) := by
        unfold lookupItem
        rw [hitems2]
      have hsrcbound : src < s.nextSeq := by
        rcases hwf with ⟨-, hb, -, -, -⟩
        exact hb src (List.mem_map.mpr ⟨(src, n), assq_mem hit, rfl⟩)
      have hdel : deleteItemV src n.version (t.e2 s2) =
            .ok (removeItem src (t.e2 s2)) ∨
          deleteItemV src n.version (t.e2 s2) = .error .noNode := by
        rcases hip1 src n hit hd with hsome | hnone
        · rcases hip3 src n (by rw [hsrc2]; exact hsome) hd with h3 | h3
          · left
            simp [deleteItemV, h3]
          · right
            simp [deleteItemV, h3]
        · right
          have h3 : lookupItem src (t.e2 s2) = none := by
            apply hnr3 src
            · rw [hns2]
              omega
            · rw [hsrc2]
              exact hnone
          simp [deleteItemV, h3]
      rcases hdel with hdel | hdel
      · have hmv : moveE me src now t s =
            (.won n.data, removeItem src (t.e2 s2)) := by
          rw [hunf, hdel]
        rw [hmv]
        refine ⟨by simp, ?_, ?_⟩
        · intro d s1 h1
          injection h1 with h1a h1b
          injection h1a with h1a
          subst h1a h1b
          rw [consumerOf_removeItem]
          exact ⟨hd, wf_removeItem _ hwf3, hcp3 _ hcons2⟩
        · intro s1 h1
          exact absurd h1 (by simp)
      · have hc3 : consumerOf me (t.e3 (t.e2 s2)) = some ⟨a, some n.data⟩ := by
          obtain ⟨-, -, hcp4, -, -⟩ := ht3 (t.e2 s2) hwf3
          exact hcp4 _ (hcp3 _ hcons2)
        rcases setSlot_ok "" hc3 with ⟨s5, hset5, _, _, _, hcons5, _, _⟩
        have hwf4 : wfStore (t.e3 (t.e2 s2)) := (ht3 (t.e2 s2) hwf3).1
        have hmv : moveE me src now t s = (.lost, s5) := by
          rw [hunf, hdel, hset5]
        rw [hmv]
        refine ⟨by simp, ?_, ?_⟩
        · intro d s1 h1
          exact absurd h1 (by simp)
        · intro s1 h1
          injection h1 with h1a h1b
          subst h1b
          exact ⟨wf_setSlot hc3 hset5 hwf4, Or.inr hcons5⟩

/-- A store with one stale registration: consumer 0 has no active marker
(its session is dead) and a non-empty item slot holding payload X. -/
def staleS : Store := ⟨[], 5, [(0, ⟨false, some "X"⟩)], 1⟩

/-- C1: For every consumer registration under /queue/consumers whose active
marker is absent, a call to collect() requeues the registration's non-empty
item-slot payload as a fresh item node under /queue/items, deletes the
stale registration subtree, and returns the number of registrations
reclaimed. The code does none of this: collect() lists the registrations
and immediately breaks out of the loop (its body is the bare break under
the comment XXX remove old inactive consumers), leaves the store unchanged,
requeues nothing, and returns Python None rather than a count. This theorem
evaluates the collector at a store holding exactly one stale registration
with payload X: the result carries no count, the registration survives, and
no item node is created. -/
theorem c1_collector_stub :
    consumerOf 0 staleS = some ⟨false, some "X"⟩ ∧
    staleS.items = [] ∧
    collectOp staleS = (none, staleS) := by decide

/-- An empty queue with one registered, idle consumer (id 1). -/
def emptyQ : Store := ⟨[], 0, [(1, ⟨true, some ""⟩)], 2⟩

/-- C4 (code bug): In blocking mode with /queue/items empty, reserve() is
claimed to re-list with a one-shot watch and suspend until the watch
fires. The code instead busy-polls: each iteration of the while loop
re-acquires the (reentrant) condition lock and re-lists, and because the
for loop over zero candidates never runs, no cv.wait() is ever reached and
nothing is released or returned. The observed trace over any number of
iterations on the empty queue is exactly the alternation of lock
acquisitions and listings, with no wait and no return. -/
theorem c4_blocking_busy_loop :
    blockingTrace (some 1) 600 emptyQ 3 =
      [.acq, .lst [], .acq, .lst [], .acq, .lst []] ∧
    (∀ fuel, BEv.waited ∉ blockingTrace (some 1) 600 emptyQ fuel) ∧
    (∀ fuel d, BEv.ret d ∉ blockingTrace (some 1) 600 emptyQ fuel) := by
  have hnil : listItems emptyQ = [] := by decide
  refine ⟨by decide, ?_, ?_⟩
  · intro fuel
    induction fuel with
    | zero => simp [blockingTrace]
    | succ m ih =>
      simp only [blockingTrace, hnil, List.mem_cons]
      rintro (h | h | h)
      · exact absurd h (by decide)
      · exact absurd h (by decide)
      · exact ih h
  · intro fuel d
    induction fuel with
    | zero => simp [blockingTrace]
    | succ m ih =>
      simp only [blockingTrace, hnil, List.mem_cons]
      rintro (h | h | h)
      · exact absurd h (by simp)
      · exact absurd h (by simp)
      · exact ih h

/-- A queue holding one young, still-empty item node (created at time 500,
observed at time 600, well inside the 300-unit abandonment threshold),
with one registered idle consumer. -/
def youngS : Store := ⟨[(0, ⟨"", 0, 500⟩)], 1, [(1, ⟨true, some ""⟩)], 2⟩

/-- C3 counterexample: the claim says a non-blocking reserve() returns
noWork after one pass over the item candidates in which no item yielded a
winnable payload. On a queue holding one young empty item, a full pass
yields no payload, yet the call does not return noWork: it re-lists and
scans again, forever (the state is unchanged, so after one observed pass,
and equally after nine, the loop is still running; it only ever returns
noWork from an empty listing). -/
theorem c3_counterexample :
    listItems youngS = [0] ∧
    simpleReserveE (some 1) 600 1 [] youngS = (none, youngS) ∧
    simpleReserveE (some 1) 600 9 [] youngS = (none, youngS) := by decide

/-- C9 counterexample: after close() the consumer identity is cleared to
Python None; the claim says every subsequent operation on the identity
fails with a guard. But a non-blocking reserve() on an empty /queue/items
returns noWork before ever touching the identity, so it succeeds rather
than failing. -/
theorem c9_counterexample :
    simpleReserveE none 600 1 [] (⟨[], 0, [], 0⟩ : Store) =
      (some .noWork, (⟨[], 0, [], 0⟩ : Store)) := by decide

/-- A queue holding one populated item (payload X at version 1) and one
registered idle consumer. -/
def fullS : Store := ⟨[(0, ⟨"X", 1, 0⟩)], 1, [(1, ⟨true, some ""⟩)], 2⟩

/-- Interference that writes Y into item 0 (any other client of the shared
store may set an item node in place, bumping its version). -/
def bumpItem0 : Store → Store := setItemData 0 "Y"

/-- C5 counterexample: the claim says a version-mismatch failure of the
conditional delete is caught locally and never surfaced to the caller of
reserve(). In the code, Consumer._move re-raises BadVersionException (the
except branch comments that the caller may re-read or abort) and neither
_simple_reserve nor reserve catches it. With interference that modifies
the candidate item between the slot write and the conditional delete, the
non-blocking reserve() call surfaces the bad-version error to its caller
instead of retrying. -/
theorem c5_counterexample :
    (simpleReserveE (some 1) 600 1 [⟨id, bumpItem0, id⟩] fullS).1 =
      some (.rerr .badVersion) := by decide

/-- The configuration in which both consumers of the canonical race hold
payload X in their item slots at the same instant: consumer 1 has read the
item and lost the race, and has just performed its unconditional slot
write; consumer 2 has already completed its winning move. -/
def raceBoth : Config2 :=
  applyL 0 600 (applyR 0 600 (applyR 0 600 (applyR 0 600 (applyL 0 600 race0))))

/-- C2 counterexample: the claim says that at every instant of every
interleaved execution no payload is present in two consumers' item slots
simultaneously. In the interleaving in which consumer 1 reads the item,
consumer 2 then reads it, writes it into its own slot and wins the
conditional delete, and consumer 1 then performs its own unconditional
slot write, the reachable configuration raceBoth has payload X in both
consumers' slots at once (consumer 1 has not yet executed the conditional
delete that will fail and trigger its rollback). -/
theorem c2_counterexample :
    Reach2 0 600 race0 raceBoth ∧
    slotOf 1 raceBoth.store = some "X" ∧
    slotOf 2 raceBoth.store = some "X" := by
  refine ⟨?_, by decide, by decide⟩
  exact Reach2.stepL
    (Reach2.stepR
      (Reach2.stepR
        (Reach2.stepR
          (Reach2.stepL (Reach2.refl race0) (by decide))
          (by decide))
        (by decide))
      (by decide))
    (by decide)

/-- C6: For every candidate item node whose data is non-empty, the move
step writes that data into the calling consumer's own item slot
unconditionally, then deletes the source node conditioned on the version
obtained by the preceding read, and returns the payload to the caller
exactly when that conditional delete succeeds. Stated over one move
attempt with sound interference in its windows: the slot write always
happens and records the read data; a successful conditional delete at the
read version is exactly the case in which the payload is returned. -/
theorem c6_move_contract (me src now : Nat) (t : EnvT) (s : Store)
    (n : ItemNode) (a : Bool) (x : String)
    (hwf : wfStore s) (ht : EnvOkT me t)
    (hit : lookupItem src s = some n) (hd : n.data ≠ "")
    (hc : consumerOf me s = some ⟨a, some x⟩) :
    ∃ s2, setSlot me n.data (t.e1 s) = some s2 ∧
      consumerOf me s2 = some ⟨a, some n.data⟩ ∧
      (∀ s4, deleteItemV src n.version (t.e2 s2) = .ok s4 →
         moveE me src now t s = (.won n.data, s4)) ∧
      (∀ d s5, moveE me src now t s = (.won d, s5) →
         d = n.data ∧ deleteItemV src n.version (t.e2 s2) = .ok s5) ∧
      (∀ e, deleteItemV src n.version (t.e2 s2) = .error e →
         ∀ d s5, moveE me src now t s ≠ (.won d, s5)) := by
  obtain ⟨ht1, ht2, ht3⟩ := ht
  obtain ⟨hwf1, hns1, hcp1, hip1, hnr1⟩ := ht1 s hwf
  have hc1 := hcp1 _ hc
  rcases setSlot_ok n.data hc1 with ⟨s2, hset, _, _, _, hcons2, _, _⟩
  have hunf := @moveE_nonempty_unfold me src now t s s2 n hit hd hset
  refine ⟨s2, hset, hcons2, ?_, ?_, ?_⟩
  · intro s4 hdel
    rw [hunf, hdel]
  · intro d s5 hw
    rw [hunf] at hw
    cases hdel : deleteItemV src n.version (t.e2 s2) with
    | ok s4 =>
      rw [hdel] at hw
      injection hw with hw1 hw2
      injection hw1 with hw1
      refine ⟨hw1.symm, ?_⟩
      rw [← hw2]
    | error e =>
      rw [hdel] at hw
      cases e with
      | noNode =>
        cases hsr : setSlot me "" (t.e3 (t.e2 s2)) with
        | some s6 =>
          rw [hsr] at hw
          exact absurd hw (by simp)
        | none =>
          rw [hsr] at hw
          exact absurd hw (by simp)
      | badVersion => exact absurd hw (by simp)
      | typeErr => exact absurd hw (by simp)
  · intro e hdel d s5 hw
    rw [hunf, hdel] at hw
    cases e with
    | noNode =>
      cases hsr : setSlot me "" (t.e3 (t.e2 s2)) with
      | some s6 =>
        rw [hsr] at hw
        exact absurd hw (by simp)
      | none =>
        rw [hsr] at hw
        exact absurd hw (by simp)
    | badVersion => exact absurd hw (by simp)
    | typeErr => exact absurd hw (by simp)

/-- Witness for C6 at a concrete input: consumer 1, the populated item 0 of
fullS, no interference. -/
theorem c6_move_contract_witness :
    ∃ s2, setSlot 1 "X" fullS = some s2 ∧
      consumerOf 1 s2 = some ⟨true, some "X"⟩ ∧
      (∀ s4, deleteItemV 0 1 s2 = .ok s4 →
         moveE 1 0 600 idT fullS = (.won "X", s4)) ∧
      (∀ d s5, moveE 1 0 600 idT fullS = (.won d, s5) →
         d = "X" ∧ deleteItemV 0 1 s2 = .ok s5) ∧
      (∀ e, deleteItemV 0 1 s2 = .error e →
         ∀ d s5, moveE 1 0 600 idT fullS ≠ (.won d, s5)) :=
  c6_move_contract 1 0 600 idT fullS ⟨"X", 1, 0⟩ true ""
    (by decide) (envOkT_idT 1) (by decide) (by decide) (by decide)

/-- C7: For every item node with empty data encountered during a
reservation pass: if its creation time is older than the abandonment
threshold (300 time units, the 5 minutes of the source) it is deleted
outright, a NoNode failure of that delete being tolerated (the removal is
a no-op when interference already deleted it), and it yields no payload;
if it is younger than the threshold the store is left exactly as it was
and no payload is returned either. -/
theorem c7_empty_item_policy (me src now : Nat) (t : EnvT) (s : Store)
    (n : ItemNode)
    (hit : lookupItem src s = some n) (hd : n.data = "") :
    (n.ctime < now - 300 →
       moveE me src now t s = (.lost, removeItem src (t.e1 s)) ∧
       lookupItem src (removeItem src (t.e1 s)) = none) ∧
    (¬ n.ctime < now - 300 → moveE me src now t s = (.lost, s)) ∧
    (moveE me src now t s).1 = .lost := by
  by_cases hct : n.ctime < now - 300
  · have hmv : moveE me src now t s = (.lost, removeItem src (t.e1 s)) := by
      simp only [moveE, hit, if_pos hd, if_pos hct]
    refine ⟨fun _ => ⟨hmv, lookupItem_removeItem_self src (t.e1 s)⟩,
      fun hcon => absurd hct hcon, ?_⟩
    rw [hmv]
  · have hmv : moveE me src now t s = (.lost, s) := by
      simp only [moveE, hit, if_pos hd, if_neg hct]
    refine ⟨fun hcon => absurd hcon hct, fun _ => hmv, ?_⟩
    rw [hmv]

/-- A queue holding one old, still-empty item node (created at time 100,
observed at time 600, past the 300-unit abandonment threshold). -/
def oldS : Store := ⟨[(0, ⟨"", 0, 100⟩)], 1, [(1, ⟨true, some ""⟩)], 2⟩

/-- Witness for C7 at a concrete input: the old empty item of oldS is
dropped and yields no payload. -/
theorem c7_empty_item_policy_witness :
    ((⟨"", 0, 100⟩ : ItemNode).ctime < 600 - 300 →
       moveE 1 0 600 idT oldS = (.lost, removeItem 0 (idT.e1 oldS)) ∧
       lookupItem 0 (removeItem 0 (idT.e1 oldS)) = none) ∧
    (¬ (⟨"", 0, 100⟩ : ItemNode).ctime < 600 - 300 →
       moveE 1 0 600 idT oldS = (.lost, oldS)) ∧
    (moveE 1 0 600 idT oldS).1 = .lost :=
  c7_empty_item_policy 1 0 600 idT oldS ⟨"", 0, 100⟩ (by decide) (by decide)

/-- A scan pass over candidates that are all empty and younger than the
abandonment threshold changes nothing and yields nothing. -/
theorem passE_unproductive {me now : Nat} {s : Store} {cs : List Nat}
    {es : List EnvT}
    (hall : ∀ c ∈ cs, ∃ n, lookupItem c s = some n ∧ n.data = "" ∧
       ¬ n.ctime < now - 300) :
    passE me now cs es s = (none, s) := by
  induction cs generalizing es with
  | nil => rfl
  | cons c cs ih =>
    rcases hall c (List.mem_cons_self _ _) with ⟨n, hl, hd, hct⟩
    have hmv : moveE me c now (es.headD idT) s = (.lost, s) := by
      simp only [moveE, hl, if_pos hd, if_neg hct]
    simp only [passE, hmv]
    exact ih fun c2 hc2 => hall c2 (List.mem_cons_of_mem _ hc2)

/-- Outcomes of one scan pass by a registered consumer whose slot node
exists, under sound interference: a pass that returns a payload has
recorded it in the slot, a pass that falls through keeps the registration
intact, and a pass never surfaces an exception. -/
theorem passE_spec {me now : Nat} {cs : List Nat} {es : List EnvT} {s : Store}
    {a : Bool} {x : String}
    (hwf : wfStore s) (hc : consumerOf me s = some ⟨a, some x⟩)
    (hes : ∀ t ∈ es, EnvOkT me t) :
    (∀ d s1, passE me now cs es s = (some (.payload d), s1) →
       d ≠ "" ∧ wfStore s1 ∧ consumerOf me s1 = some ⟨a, some d⟩) ∧
    (∀ s1, passE me now cs es s = (none, s1) →
       wfStore s1 ∧ ∃ y, consumerOf me s1 = some ⟨a, some y⟩) ∧
    (∀ e s1, passE me now cs es s ≠ (some (.rerr e), s1)) := by
  induction cs generalizing es s x with
  | nil =>
    refine ⟨?_, ?_, ?_⟩
    · intro d s1 h1
      exact absurd h1 (by simp [passE])
    · intro s1 h1
      injection h1 with h1a h1b
      subst h1b
      exact ⟨hwf, x, hc⟩
    · intro e s1 h1
      exact absurd h1 (by simp [passE])
  | cons c cs ih =>
    have hok : EnvOkT me (es.headD idT) := by
      cases es with
      | nil => exact envOkT_idT me
      | cons t ts => exact hes t (List.mem_cons_self _ _)
    have htail : ∀ t ∈ es.tail, EnvOkT me t := by
      cases es with
      | nil => intro t ht; simp at ht
      | cons t ts => exact fun t2 ht2 => hes t2 (List.mem_cons_of_mem _ ht2)
    have hspec := @moveE_spec me c now (es.headD idT) s a x hwf hok hc
    rcases hmv : moveE me c now (es.headD idT) s with ⟨r, s2⟩
    cases r with
    | won d =>
      rcases hspec.2.1 d s2 hmv with ⟨hd, hwf2, hc2⟩
      refine ⟨?_, ?_, ?_⟩
      · intro d2 s3 h1
        simp only [passE, hmv] at h1
        injection h1 with h1a h1b
        injection h1a with h1a
        injection h1a with h1a
        subst h1b
        rw [← h1a]
        exact ⟨hd, hwf2, hc2⟩
      · intro s3 h1
        simp only [passE, hmv] at h1
        exact absurd h1 (by simp)
      · intro e s3 h1
        simp only [passE, hmv] at h1
        injection h1 with h1a h1b
        injection h1a with h1a
        exact absurd h1a (by simp)
    | lost =>
      rcases hspec.2.2 s2 hmv with ⟨hwf2, hc2 | hc2⟩
      · have := @ih es.tail s2 x hwf2 hc2 htail
        simpa only [passE, hmv] using this
      · have := @ih es.tail s2 "" hwf2 hc2 htail
        simpa only [passE, hmv] using this
    | errR e =>
      exact absurd (by rw [hmv] : (moveE me c now (es.headD idT) s).1 = .errR e)
        (hspec.1 e)

/-- A non-blocking reserve that returns a payload has recorded it in the
slot of the calling consumer. -/
theorem simpleReserveE_payload {me now : Nat} {s : Store} {a : Bool}
    {x : String}
    (hwf : wfStore s) (hc : consumerOf me s = some ⟨a, some x⟩) :
    ∀ fuel es d s1,
      (∀ t ∈ es, EnvOkT me t) →
      simpleReserveE (some me) now fuel es s = (some (.payload d), s1) →
      d ≠ "" ∧ consumerOf me s1 = some ⟨a, some d⟩ := by
  intro fuel
  induction fuel generalizing s x with
  | zero =>
    intro es d s1 hes h1
    exact absurd h1 (by simp [simpleReserveE])
  | succ m ih =>
    intro es d s1 hes h1
    cases hl : listItems s with
    | nil =>
      simp only [simpleReserveE, hl] at h1
      injection h1 with h1a h1b
      injection h1a with h1a
      exact absurd h1a (by simp)
    | cons c cs =>
      simp only [simpleReserveE, hl] at h1
      have hps := @passE_spec me now (c :: cs) es s a x hwf hc hes
      rcases hp : passE me now (c :: cs) es s with ⟨r, s2⟩
      cases r with
      | some r2 =>
        rw [hp] at h1
        simp only at h1
        injection h1 with h1a h1b
        subst h1b
        injection h1a with h1a
        subst h1a
        rcases hps.1 d s2 hp with ⟨hd, _, hc2⟩
        exact ⟨hd, hc2⟩
      | none =>
        rw [hp] at h1
        simp only at h1
        rcases hps.2.1 s2 hp with ⟨hwf2, y, hc2⟩
        exact @ih s2 y hwf2 hc2 es d s1 hes h1

/-- C3 amended: a non-blocking reserve() either returns a payload that is
then recorded in the calling consumer's own item slot, or returns noWork
exactly when a listing of /queue/items comes back empty, which on an empty
queue happens immediately; a pass in which candidates exist but none
yields a winnable payload does not return noWork: the consumer re-lists
and scans again, with the loop still running after any number of such
passes. -/
theorem c3_reserve_amended (me now : Nat) (s : Store) (a : Bool)
    (hwf : wfStore s) (hc : consumerOf me s = some ⟨a, some ""⟩) :
    (listItems s = [] → ∀ fuel,
       simpleReserveE (some me) now (fuel + 1) [] s = (some .noWork, s)) ∧
    ((∀ k n, lookupItem k s = some n → n.data = "" ∧ ¬ n.ctime < now - 300) →
       listItems s ≠ [] → ∀ fuel,
       simpleReserveE (some me) now fuel [] s = (none, s)) ∧
    (∀ fuel es d s1,
       (∀ t ∈ es, EnvOkT me t) →
       simpleReserveE (some me) now fuel es s = (some (.payload d), s1) →
       d ≠ "" ∧ consumerOf me s1 = some ⟨a, some d⟩) := by
  refine ⟨?_, ?_, simpleReserveE_payload hwf hc⟩
  · intro hnil fuel
    simp [simpleReserveE, hnil]
  · intro hall hne fuel
    induction fuel with
    | zero => rfl
    | succ m ih =>
      cases hl : listItems s with
      | nil => exact absurd hl hne
      | cons c cs =>
        have hpass : passE me now (c :: cs) [] s = (none, s) := by
          apply passE_unproductive
          intro c2 hc2
          have hc3 : c2 ∈ listItems s := by
            rw [hl]
            exact hc2
          rcases mem_listItems_exists hc3 with ⟨n, hn⟩
          rcases hall c2 n hn with ⟨hd, hct⟩
          exact ⟨n, hn, hd, hct⟩
        simp only [simpleReserveE, hl, hpass]
        exact ih

/-- Witness for C3 amended at a concrete input: on youngS (one young empty
item) the listing is non-empty and reserve keeps looping; the payload and
empty-listing conjuncts are instantiated at the same store. -/
theorem c3_reserve_amended_witness :
    (listItems youngS = [] → ∀ fuel,
       simpleReserveE (some 1) 600 (fuel + 1) [] youngS =
         (some .noWork, youngS)) ∧
    ((∀ k n, lookupItem k youngS = some n →
        n.data = "" ∧ ¬ n.ctime < 600 - 300) →
       listItems youngS ≠ [] → ∀ fuel,
       simpleReserveE (some 1) 600 fuel [] youngS = (none, youngS)) ∧
    (∀ fuel es d s1,
       (∀ t ∈ es, EnvOkT 1 t) →
       simpleReserveE (some 1) 600 fuel es youngS = (some (.payload d), s1) →
       d ≠ "" ∧ consumerOf 1 s1 = some ⟨true, some d⟩) :=
  c3_reserve_amended 1 600 youngS true (by decide) (by decide)

/-- Freshly registered consumers start with an empty slot. -/
theorem consumerOf_registerOp {s : Store} (hwf : wfStore s) :
    consumerOf (registerOp s).1 (registerOp s).2 = some ⟨true, some ""⟩ := by
  show assq s.nextCons (s.consumers ++ [(s.nextCons, (⟨true, some ""⟩ : ConsReg))]) = _
  rw [assq_append_of_none]
  · simp [assq]
  · apply assq_of_forall_ne
    intro p hp
    have := hwf.2.2.2.2 p.1 (List.mem_map.mpr ⟨p, hp, rfl⟩)
    omega

/-- Protocol-conformant histories of a single registered consumer between
two store states: arbitrary sound interference may run at any point, the
consumer attempts moves (the body of a reserve call) only while idle, a
won move puts it in the holding phase, and done() returns it to idle. The
phase is none while idle and some d while holding payload d. -/
inductive Sess (me now : Nat) :
    Store → Option String → Store → Option String → Prop where
  | nil (s : Store) (ph : Option String) : Sess me now s ph s ph
  | env {s sf : Store} {ph phf : Option String} (f : Store → Store) :
      EnvOkF me f → Sess me now (f s) ph sf phf → Sess me now s ph sf phf
  | moveWon {s s1 sf : Store} {phf : Option String} (src : Nat) (t : EnvT)
      (d : String) :
      EnvOkT me t → moveE me src now t s = (.won d, s1) →
      Sess me now s1 (some d) sf phf → Sess me now s none sf phf
  | moveLost {s s1 sf : Store} {phf : Option String} (src : Nat) (t : EnvT) :
      EnvOkT me t → moveE me src now t s = (.lost, s1) →
      Sess me now s1 none sf phf → Sess me now s none sf phf
  | doneStep {s s1 sf : Store} {ph phf : Option String} :
      setSlot me "" s = some s1 →
      Sess me now s1 none sf phf → Sess me now s ph sf phf

/-- Invariant of a consumer history: the slot content always equals the
payload of the current phase (the empty string while idle). -/
theorem sess_inv {me now : Nat} {s sf : Store} {ph phf : Option String}
    {a : Bool}
    (hs : Sess me now s ph sf phf) :
    wfStore s → consumerOf me s = some ⟨a, some (ph.getD "")⟩ →
    (∀ d, ph = some d → d ≠ "") →
    wfStore sf ∧ consumerOf me sf = some ⟨a, some (phf.getD "")⟩ ∧
    (∀ d, phf = some d → d ≠ "") := by
  induction hs with
  | nil s ph =>
    intro hwf hc hp
    exact ⟨hwf, hc, hp⟩
  | env f hf _ ih =>
    intro hwf hc hp
    obtain ⟨hwf1, _, hcp, _, _⟩ := hf _ hwf
    exact ih hwf1 (hcp _ hc) hp
  | moveWon src t d ht hmv _ ih =>
    intro hwf hc hp
    have hspec := @moveE_spec me src now t _ a _ hwf ht hc
    rcases hspec.2.1 d _ hmv with ⟨hd, hwf1, hc1⟩
    refine ih hwf1 hc1 ?_
    intro d2 hd2
    injection hd2 with h2
    rw [← h2]
    exact hd
  | moveLost src t ht hmv _ ih =>
    intro hwf hc hp
    have hspec := @moveE_spec me src now t _ a _ hwf ht hc
    rcases hspec.2.2 _ hmv with ⟨hwf1, hc1 | hc1⟩
    · exact ih hwf1 hc1 (by simp)
    · exact ih hwf1 hc1 (by simp)
  | doneStep hset _ ih =>
    intro hwf hc hp
    rcases setSlot_ok "" hc with ⟨s2, hset2, _, _, _, hc2, _, _⟩
    rw [hset] at hset2
    injection hset2 with h2
    subst h2
    exact ih (wf_setSlot hc hset hwf) (by simpa using hc2) (by simp)

/-- C8: Throughout every protocol-conformant history of a single consumer,
the item slot is non-empty exactly while the consumer is holding a
payload: registration creates the slot empty, a won reserve records the
non-empty payload in the slot, failed move attempts leave or restore the
slot empty, and done() clears it back to empty. -/
theorem c8_slot_lifecycle (me now : Nat) (s0 sf : Store) (a : Bool)
    (phf : Option String)
    (hwf : wfStore s0) (hc : consumerOf me s0 = some ⟨a, some ""⟩)
    (hs : Sess me now s0 none sf phf) :
    (∀ s1, wfStore s1 →
       consumerOf (registerOp s1).1 (registerOp s1).2 = some ⟨true, some ""⟩) ∧
    wfStore sf ∧
    consumerOf me sf = some ⟨a, some (phf.getD "")⟩ ∧
    (∀ d, phf = some d → d ≠ "") ∧
    (∀ s1 a1 x1, consumerOf me s1 = some ⟨a1, some x1⟩ →
       ∃ s2, doneC (some me) s1 = (none, s2) ∧
         consumerOf me s2 = some ⟨a1, some ""⟩) := by
  have hinv := sess_inv hs hwf (by simpa using hc) (by simp)
  refine ⟨fun s1 h1 => consumerOf_registerOp h1, hinv.1, hinv.2.1, hinv.2.2, ?_⟩
  intro s1 a1 x1 hc1
  rcases setSlot_ok "" hc1 with ⟨s2, hset2, _, _, _, hc2, _, _⟩
  refine ⟨s2, ?_, hc2⟩
  simp only [doneC, hset2]

/-- Witness for C8 at a concrete input: consumer 1 starts idle on fullS,
wins the single item in one move attempt without interference, and ends
holding payload X, which its slot then carries. -/
theorem c8_slot_lifecycle_witness :
    (∀ s1, wfStore s1 →
       consumerOf (registerOp s1).1 (registerOp s1).2 = some ⟨true, some ""⟩) ∧
    wfStore (⟨[], 1, [(1, ⟨true, some "X"⟩)], 2⟩ : Store) ∧
    consumerOf 1 (⟨[], 1, [(1, ⟨true, some "X"⟩)], 2⟩ : Store) =
      some ⟨true, some "X"⟩ ∧
    (∀ d, some "X" = some d → d ≠ "") ∧
    (∀ s1 a1 x1, consumerOf 1 s1 = some ⟨a1, some x1⟩ →
       ∃ s2, doneC (some 1) s1 = (none, s2) ∧
         consumerOf 1 s2 = some ⟨a1, some ""⟩) :=
  c8_slot_lifecycle 1 600 fullS ⟨[], 1, [(1, ⟨true, some "X"⟩)], 2⟩ true
    (some "X") (by decide) (by decide)
    (Sess.moveWon 0 idT "X" (envOkT_idT 1) (by decide) (Sess.nil _ _))

/-- C5 amended: when the conditional delete of the current candidate
observes a version different from the one the read returned, the move step
ends by re-raising the bad-version error (the source comments that the
caller may re-read or abort and raises), and the non-blocking reserve()
call surfaces that error to its caller instead of catching it and
retrying. -/
theorem c5_badversion_surfaced (me now src : Nat) (t : EnvT) (s s2 : Store)
    (cs : List Nat) (n m : ItemNode)
    (hl : listItems s = src :: cs)
    (hit : lookupItem src s = some n) (hd : n.data ≠ "")
    (hset : setSlot me n.data (t.e1 s) = some s2)
    (hm : lookupItem src (t.e2 s2) = some m) (hv : ¬ m.version = n.version) :
    moveE me src now t s = (.errR .badVersion, t.e2 s2) ∧
    simpleReserveE (some me) now 1 [t] s =
      (some (.rerr .badVersion), t.e2 s2) := by
  have hdel : deleteItemV src n.version (t.e2 s2) = .error .badVersion := by
    simp [deleteItemV, hm, if_neg hv]
  have hunf := @moveE_nonempty_unfold me src now t s s2 n hit hd hset
  have hmv : moveE me src now t s = (.errR .badVersion, t.e2 s2) := by
    rw [hunf, hdel]
  refine ⟨hmv, ?_⟩
  have hhead : ([t].headD idT) = t := rfl
  simp only [simpleReserveE, hl, passE, hhead, hmv]

/-- The state of fullS right after consumer 1 wrote X into its slot. -/
def fullSlotted : Store := ⟨[(0, ⟨"X", 1, 0⟩)], 1, [(1, ⟨true, some "X"⟩)], 2⟩

/-- Witness for C5 amended at a concrete input: interference bumps item 0
to version 2 between the slot write and the delete, and reserve()
surfaces the bad-version error. -/
theorem c5_badversion_surfaced_witness :
    moveE 1 0 600 ⟨id, bumpItem0, id⟩ fullS =
      (.errR .badVersion, bumpItem0 fullSlotted) ∧
    simpleReserveE (some 1) 600 1 [⟨id, bumpItem0, id⟩] fullS =
      (some (.rerr .badVersion), bumpItem0 fullSlotted) :=
  c5_badversion_surfaced 1 600 0 ⟨id, bumpItem0, id⟩ fullS fullSlotted []
    ⟨"X", 1, 0⟩ ⟨"Y", 2, 0⟩ (by decide) (by decide) (by decide) (by decide)
    (by decide) (by decide)

/-- C9 amended: after close() the identity is cleared to Python None, and
every subsequent operation that builds a path from the identity fails with
the TypeError guard before touching the store: done(), close(), and any
reserve() pass that finds candidates to move. Only a non-blocking
reserve() that finds /queue/items empty returns noWork without touching
the identity (the counterexample to the original claim). -/
theorem c9_closed_guard (now fuel : Nat) (es : List EnvT) (s : Store)
    (c : Nat) (cs : List Nat)
    (hl : listItems s = c :: cs) :
    doneC none s = (some .typeErr, s) ∧
    closeC none s = (some .typeErr, s, none) ∧
    simpleReserveE none now (fuel + 1) es s = (some (.rerr .typeErr), s) := by
  refine ⟨rfl, rfl, ?_⟩
  simp only [simpleReserveE, hl]

/-- Witness for C9 amended at a concrete input: a closed consumer identity
against the non-empty queue fullS. -/
theorem c9_closed_guard_witness :
    doneC none fullS = (some .typeErr, fullS) ∧
    closeC none fullS = (some .typeErr, fullS, none) ∧
    simpleReserveE none 600 1 [] fullS =
      (some (.rerr .typeErr), fullS) :=
  c9_closed_guard 600 0 [] fullS 0 [] (by decide)

theorem assq_append_single_ne {α : Type} {j k : Nat} {v : α}
    {l : List (Nat × α)} (h : j ≠ k) :
    assq j (l ++ [(k, v)]) = assq j l := by
  cases ha : assq j l with
  | some w => exact assq_append_of_some ha
  | none =>
    rw [assq_append_of_none ha, assq]
    have : k ≠ j := fun hc => h hc.symm
    rw [if_neg this]
    rfl

theorem filter_append_single {α : Type} (k : Nat) (v : α)
    (l : List (Nat × α)) (h : ∀ p ∈ l, p.1 ≠ k) :
    (l ++ [(k, v)]).filter (fun p => p.1 != k) = l := by
  induction l with
  | nil => simp
  | cons p ps ih =>
    have hp : p.1 ≠ k := h p (List.mem_cons_self _ _)
    rw [List.cons_append, List.filter_cons]
    simp only [bne_iff_ne, ne_eq, hp, not_false_eq_true, if_true]
    rw [ih fun q hq => h q (List.mem_cons_of_mem _ hq)]

/-- Complete behavior of Producer.put under the NoNode retry loop: relative
to any well-formed starting store, the returned key holds the payload at
version 1, every other key is untouched, exactly one item node was added,
and the returned key is fresh. In particular the node whose write failed
with NoNode was already deleted (that is what made the write fail), so no
empty node from the retry path remains. -/
theorem putRun_spec (now : Nat) (sched : List Bool) :
    ∀ s d, wfStore s →
      lookupItem (putRun now sched s d).1 (putRun now sched s d).2 =
        some ⟨d, 1, now⟩ ∧
      (∀ j, j ≠ (putRun now sched s d).1 →
         lookupItem j (putRun now sched s d).2 = lookupItem j s) ∧
      ((putRun now sched s d).2).items.length = s.items.length + 1 ∧
      lookupItem (putRun now sched s d).1 s = none := by
  have base : ∀ s d, wfStore s →
      ∀ k s2, (k, s2) =
        (match setItemCond s.nextSeq d 0 (createItemSeq now s).2 with
         | .ok s3 => (s.nextSeq, s3)
         | .error _ => (s.nextSeq, (createItemSeq now s).2)) →
      lookupItem k s2 = some ⟨d, 1, now⟩ ∧
      (∀ j, j ≠ k → lookupItem j s2 = lookupItem j s) ∧
      s2.items.length = s.items.length + 1 ∧
      lookupItem k s = none := by
    intro s d hwf k s2 heq
    have hfresh : ∀ p ∈ s.items, p.1 ≠ s.nextSeq := by
      intro p hp
      have := hwf.2.1 p.1 (List.mem_map.mpr ⟨p, hp, rfl⟩)
      omega
    have hnone : lookupItem s.nextSeq s = none := assq_of_forall_ne hfresh
    have hlook1 : lookupItem s.nextSeq (createItemSeq now s).2 =
        some ⟨"", 0, now⟩ := by
      show assq s.nextSeq (s.items ++ [(s.nextSeq, (⟨"", 0, now⟩ : ItemNode))]) = _
      rw [assq_append_of_none hnone, assq]
      simp
    have hcond : setItemCond s.nextSeq d 0 (createItemSeq now s).2 =
        .ok (setItemData s.nextSeq d (createItemSeq now s).2) := by
      simp [setItemCond, hlook1]
    rw [hcond] at heq
    injection heq with hk hs2
    subst hk
    subst hs2
    refine ⟨?_, ?_, ?_, hnone⟩
    · show assq s.nextSeq ((createItemSeq now s).2.items.map
        (itemUpd s.nextSeq d)) = _
      rw [assq_map_self (g := fun nd => ⟨d, nd.version + 1, nd.ctime⟩)
        (createItemSeq now s).2.items
        (fun p hp => by simp [itemUpd, hp]) (fun p hp => by simp [itemUpd, hp])]
      show (assq s.nextSeq (s.items ++ [(s.nextSeq, (⟨"", 0, now⟩ : ItemNode))])).map _ = _
      rw [assq_append_of_none hnone, assq]
      simp
    · intro j hj
      show assq j ((createItemSeq now s).2.items.map (itemUpd s.nextSeq d)) = _
      rw [assq_map_other (createItemSeq now s).2.items hj
        (itemUpd_key s.nextSeq d) (fun p hp => by simp [itemUpd, hp])]
      exact assq_append_single_ne hj
    · show ((createItemSeq now s).2.items.map (itemUpd s.nextSeq d)).length =
        s.items.length + 1
      rw [List.length_map]
      show (s.items ++ [(s.nextSeq, (⟨"", 0, now⟩ : ItemNode))]).length =
        s.items.length + 1
      simp
  induction sched with
  | nil =>
    intro s d hwf
    exact base s d hwf _ _ rfl
  | cons b rest ih =>
    intro s d hwf
    cases b with
    | false =>
      exact base s d hwf _ _ rfl
    | true =>
      have hfresh : ∀ p ∈ s.items, p.1 ≠ s.nextSeq := by
        intro p hp
        have := hwf.2.1 p.1 (List.mem_map.mpr ⟨p, hp, rfl⟩)
        omega
      have hrm : removeItem s.nextSeq (createItemSeq now s).2 =
          { s with nextSeq := s.nextSeq + 1 } := by
        unfold removeItem createItemSeq
        simp only
        rw [filter_append_single s.nextSeq _ s.items hfresh]
      have hwf2 : wfStore { s with nextSeq := s.nextSeq + 1 } := by
        obtain ⟨h1, h2, h3, h4, h5⟩ := hwf
        refine ⟨h1, ?_, h3, h4, h5⟩
        intro k hk
        show k < s.nextSeq + 1
        have := h2 k hk
        omega
      have hput : putRun now (true :: rest) s d =
          putRun now rest { s with nextSeq := s.nextSeq + 1 } d := by
        show putRun now rest (removeItem (createItemSeq now s).1
          (createItemSeq now s).2) d = _
        rw [show (createItemSeq now s).1 = s.nextSeq from rfl, hrm]
      rcases ih { s with nextSeq := s.nextSeq + 1 } d hwf2 with
        ⟨ha, hb, hc2, hd2⟩
      rw [hput]
      exact ⟨ha, fun j hj => hb j hj, hc2, hd2⟩

/-- C10 counterexample: the claim says a completed put may leave an
additional permanently empty item node besides the one that finally holds
the payload. It cannot: the write fails with NoNode only because the fresh
node was already deleted, so after any number of retries exactly one item
node exists (the one holding the payload). Starting from an empty store,
no interference schedule makes a completed put leave two or more item
nodes. -/
theorem c10_counterexample :
    ¬ ∃ sched : List Bool,
        2 ≤ ((putRun 7 sched (⟨[], 0, [], 0⟩ : Store) "X").2).items.length := by
  rintro ⟨sched, hlen⟩
  have hspec := putRun_spec 7 sched (⟨[], 0, [], 0⟩ : Store) "X" (by decide)
  have hone : ((putRun 7 sched (⟨[], 0, [], 0⟩ : Store) "X").2).items.length = 1 := by
    simpa using hspec.2.2.1
  omega

/-- C10 amended: put(payload) never surfaces a NoNode failure: when the
payload write fails with NoNode because the freshly created node was
deleted in the meantime, the decorated put re-executes its entire body,
creating a new sequential item node and writing the payload there, until a
write succeeds. The node whose write failed was already deleted by then,
so the completed put adds exactly one item node, holding the payload at
version 1, and leaves every other key untouched. -/
theorem c10_put_retry (now : Nat) (sched : List Bool) (s : Store) (d : String)
    (hwf : wfStore s) :
    lookupItem (putRun now sched s d).1 (putRun now sched s d).2 =
      some ⟨d, 1, now⟩ ∧
    (∀ j, j ≠ (putRun now sched s d).1 →
       lookupItem j (putRun now sched s d).2 = lookupItem j s) ∧
    ((putRun now sched s d).2).items.length = s.items.length + 1 ∧
    lookupItem (putRun now sched s d).1 s = none :=
  putRun_spec now sched s d hwf

/-- Witness for C10 amended at a concrete input: one NoNode retry (the
first created node 0 is deleted before the write), after which put
completes on the fresh node 1 with nothing left over. -/
theorem c10_put_retry_witness :
    lookupItem (putRun 7 [true] (⟨[], 0, [], 0⟩ : Store) "X").1
      (putRun 7 [true] (⟨[], 0, [], 0⟩ : Store) "X").2 = some ⟨"X", 1, 7⟩ ∧
    (∀ j, j ≠ (putRun 7 [true] (⟨[], 0, [], 0⟩ : Store) "X").1 →
       lookupItem j (putRun 7 [true] (⟨[], 0, [], 0⟩ : Store) "X").2 =
         lookupItem j (⟨[], 0, [], 0⟩ : Store)) ∧
    ((putRun 7 [true] (⟨[], 0, [], 0⟩ : Store) "X").2).items.length =
      (⟨[], 0, [], 0⟩ : Store).items.length + 1 ∧
    lookupItem (putRun 7 [true] (⟨[], 0, [], 0⟩ : Store) "X").1
      (⟨[], 0, [], 0⟩ : Store) = none :=
  c10_put_retry 7 [true] (⟨[], 0, [], 0⟩ : Store) "X" (by decide)

/-- Every store call of an unfinished move machine strictly decreases its
remaining-steps rank, whatever the store holds. -/
theorem rank_moveStep (me src now : Nat) (p : MovePC) (s : Store)
    (h : activePC p = true) :
    rankPC (moveStep me src now p s).1 < rankPC p := by
  cases p with
  | atGet =>
    cases hl : lookupItem src s with
    | some n =>
      by_cases hd : n.data = ""
      · by_cases hct : n.ctime < now - 300
        · simp [moveStep, hl, hd, hct, rankPC]
        · simp [moveStep, hl, hd, hct, rankPC]
      · simp [moveStep, hl, hd, rankPC]
    | none => simp [moveStep, hl, rankPC]
  | atSet d v =>
    cases hs : setSlot me d s with
    | some s1 => simp [moveStep, hs, rankPC]
    | none => simp [moveStep, hs, rankPC]
  | atDelete d v =>
    cases hs : deleteItemV src v s with
    | ok s1 => simp [moveStep, hs, rankPC]
    | error e => cases e <;> simp [moveStep, hs, rankPC]
  | atRollback =>
    cases hs : setSlot me "" s with
    | some s1 => simp [moveStep, hs, rankPC]
    | none => simp [moveStep, hs, rankPC]
  | atDrop => simp [moveStep, rankPC]
  | mdone r => simp [activePC] at h

theorem rank2_applyL {c : Config2} (h : activePC c.pc1 = true) :
    rank2 (applyL 0 600 c) < rank2 c := by
  have hlt := rank_moveStep 1 0 600 c.pc1 c.store h
  rcases hm : moveStep 1 0 600 c.pc1 c.store with ⟨p, s⟩
  rw [hm] at hlt
  simp at hlt
  simp [rank2, applyL, hm]
  omega

theorem rank2_applyR {c : Config2} (h : activePC c.pc2 = true) :
    rank2 (applyR 0 600 c) < rank2 c := by
  have hlt := rank_moveStep 2 0 600 c.pc2 c.store h
  rcases hm : moveStep 2 0 600 c.pc2 c.store with ⟨p, s⟩
  rw [hm] at hlt
  simp at hlt
  simp [rank2, applyR, hm]
  omega

/-- Completeness of the frontier enumeration: every configuration of the
canonical race reachable by interleaving is listed at the depth equal to
its step count, which the rank bound keeps at eight or less. -/
theorem reach2_mem_frontier {c : Config2} (h : Reach2 0 600 race0 c) :
    ∃ k, c ∈ raceFrontier k ∧ k + rank2 c ≤ 8 := by
  induction h with
  | refl =>
    refine ⟨0, by simp [raceFrontier], ?_⟩
    have : rank2 race0 = 8 := by decide
    omega
  | stepL hr hact ih =>
    rcases ih with ⟨k, hmem, hk⟩
    refine ⟨k + 1, ?_, ?_⟩
    · show _ ∈ (raceFrontier k).flatMap (succs2 0 600)
      apply List.mem_flatMap.mpr
      refine ⟨_, hmem, ?_⟩
      simp [succs2, hact]
    · have := rank2_applyL hact
      omega
  | stepR hr hact ih =>
    rcases ih with ⟨k, hmem, hk⟩
    refine ⟨k + 1, ?_, ?_⟩
    · show _ ∈ (raceFrontier k).flatMap (succs2 0 600)
      apply List.mem_flatMap.mpr
      refine ⟨_, hmem, ?_⟩
      simp [succs2, hact]
    · have := rank2_applyR hact
      omega

/-- Both move machines have returned. -/
def bothDone2 (c : Config2) : Bool := !(activePC c.pc1) && !(activePC c.pc2)

/-- In a quiescent configuration of the canonical race, payload X is held
by exactly one of the two slots and the items directory is empty: the
payload was neither lost nor durably duplicated. -/
def raceOk (c : Config2) : Bool :=
  ((slotOf 1 c.store == some "X" && slotOf 2 c.store == some "") ||
   (slotOf 1 c.store == some "" && slotOf 2 c.store == some "X")) &&
  (c.store.items == [])

theorem raceFrontier_check :
    ((List.range 9).all fun k => (raceFrontier k).all fun c =>
       !(bothDone2 c) || raceOk c) = true := by decide

/-- C2 amended: the at-most-one-holder invariant holds of every quiescent
configuration, though not at every instant: in the canonical two-consumer
race on one item, once both move attempts have completed, the payload sits
in exactly one consumer's slot and in no item node, so it is neither lost
nor durably duplicated; transiently, between the losing consumer's
unconditional slot write and its rollback, both slots may hold the payload
(see the counterexample). -/
theorem c2_race_amended (c : Config2)
    (h : Reach2 0 600 race0 c) (hdone : bothDone2 c = true) :
    raceOk c = true := by
  rcases reach2_mem_frontier h with ⟨k, hmem, hk⟩
  have hk9 : k < 9 := by omega
  have hall := raceFrontier_check
  rw [List.all_eq_true] at hall
  have h2 := hall k (List.mem_range.mpr hk9)
  rw [List.all_eq_true] at h2
  have h3 := h2 c hmem
  rw [hdone] at h3
  simpa using h3

/-- Witness for C2 amended at a concrete execution: consumer 1 completes
its winning move first, consumer 2 then finds the item gone and rolls
back; the final quiescent configuration holds X exactly once. -/
theorem c2_race_amended_witness :
    raceOk (applyR 0 600 (applyR 0 600 (applyL 0 600 (applyL 0 600
      (applyL 0 600 race0))))) = true :=
  c2_race_amended _
    (Reach2.stepR
      (Reach2.stepR
        (Reach2.stepL
          (Reach2.stepL
            (Reach2.stepL (Reach2.refl race0) (by decide))
            (by decide))
          (by decide))
        (by decide))
      (by decide))
    (by decide)

/-- Update dropping the ephemeral active marker of consumer c (the store
removes it when the session of c expires). -/
def activeOffUpd (c : Nat) : Nat × ConsReg → Nat × ConsReg :=
  fun p => if p.1 = c then (p.1, (⟨false, p.2.slotData⟩ : ConsReg)) else p

/-- One store mutation some actor other than consumer me can perform, read
off the source: a producer creates a sequential empty item node or writes
the payload into its own still-empty, version-zero node (Producer.put);
another consumer conditionally deletes a reserved item or drops an
abandoned empty one (Consumer._move), writes its own item slot
(Consumer._move, Consumer.done), registers (Consumer._register), or closes
and removes its registration subtree (Consumer.close); the store itself
removes an ephemeral active marker when a session dies. The stub collector
performs no mutation at all. -/
inductive SysStep (me : Nat) : Store → Store → Prop where
  | prodCreate {s : Store} (now : Nat) :
      SysStep me s (createItemSeq now s).2
  | prodWrite {s : Store} (k : Nat) (d : String) (t : Nat) :
      lookupItem k s = some ⟨"", 0, t⟩ → SysStep me s (setItemData k d s)
  | itemDelete {s : Store} (k : Nat) : SysStep me s (removeItem k s)
  | otherSlot {s s1 : Store} (c : Nat) (d : String) :
      c ≠ me → setSlot c d s = some s1 → SysStep me s s1
  | newConsumer {s : Store} : SysStep me s (registerOp s).2
  | otherClose {s : Store} (c : Nat) : c ≠ me →
      SysStep me s { s with consumers := s.consumers.filter (fun p => p.1 != c) }
  | markerLapse {s : Store} (c : Nat) : c ≠ me →
      SysStep me s { s with consumers := s.consumers.map (activeOffUpd c) }

theorem setSlot_inv {c : Nat} {d : String} {s s1 : Store}
    (h : setSlot c d s = some s1) :
    s1 = { s with consumers := s.consumers.map (slotUpd c d) } := by
  cases hc : consumerOf c s with
  | none => simp [setSlot, hc] at h
  | some r =>
    cases hr : r.slotData with
    | none => simp [setSlot, hc, hr] at h
    | some x =>
      simp only [setSlot, hc, hr, Option.some.injEq] at h
      exact h.symm

/-- Each single system step has the five interference-soundness
properties. -/
theorem sysStep_props {me : Nat} {s s1 : Store} (h : SysStep me s s1)
    (hwf : wfStore s) :
    wfStore s1 ∧ s.nextSeq ≤ s1.nextSeq ∧
    (∀ r, consumerOf me s = some r → consumerOf me s1 = some r) ∧
    (∀ k n, lookupItem k s = some n → n.data ≠ "" →
       lookupItem k s1 = some n ∨ lookupItem k s1 = none) ∧
    (∀ k, k < s.nextSeq → lookupItem k s = none → lookupItem k s1 = none) := by
  cases h with
  | prodCreate now =>
    refine ⟨wf_createItemSeq hwf, by simp [createItemSeq], fun r hr => hr, ?_, ?_⟩
    · intro k n hk _
      exact Or.inl (assq_append_of_some hk)
    · intro k hk hnone
      show assq k (s.items ++ [(s.nextSeq, (⟨"", 0, now⟩ : ItemNode))]) = none
      rw [assq_append_of_none hnone, assq]
      have : s.nextSeq ≠ k := by omega
      rw [if_neg this]
      rfl
  | prodWrite k d t hk =>
    refine ⟨wf_setItemData hwf, le_refl _, fun r hr => hr, ?_, ?_⟩
    · intro k2 n2 hk2 hd2
      by_cases hkk : k2 = k
      · subst hkk
        rw [hk2] at hk
        injection hk with hk
        subst hk
        exact absurd rfl hd2
      · left
        show assq k2 (s.items.map (itemUpd k d)) = some n2
        rw [assq_map_other s.items hkk (itemUpd_key k d)
          (fun p hp => by simp [itemUpd, hp])]
        exact hk2
    · intro k2 hk2 hnone
      by_cases hkk : k2 = k
      · subst hkk
        rw [hk] at hnone
        exact absurd hnone (by simp)
      · show assq k2 (s.items.map (itemUpd k d)) = none
        rw [assq_map_other s.items hkk (itemUpd_key k d)
          (fun p hp => by simp [itemUpd, hp])]
        exact hnone
  | itemDelete k =>
    refine ⟨wf_removeItem k hwf, le_refl _, fun r hr => hr, ?_, ?_⟩
    · intro k2 n2 hk2 _
      by_cases hkk : k2 = k
      · subst hkk
        exact Or.inr (lookupItem_removeItem_self k2 s)
      · left
        rw [lookupItem_removeItem_other s hkk]
        exact hk2
    · intro k2 hk2 hnone
      by_cases hkk : k2 = k
      · subst hkk
        exact lookupItem_removeItem_self k2 s
      · rw [lookupItem_removeItem_other s hkk]
        exact hnone
  | otherSlot c d hcm hset =>
    have hs1 := setSlot_inv hset
    subst hs1
    refine ⟨?_, le_refl _, ?_, fun k n hk _ => Or.inl hk, fun k _ hn => hn⟩
    · refine wf_of_eq_parts hwf rfl rfl ?_ rfl
      exact keys_map_of_key_fixed s.consumers (slotUpd_key c d)
    · intro r hr
      show assq me (s.consumers.map (slotUpd c d)) = some r
      rw [assq_map_other s.consumers (fun hc => hcm hc.symm) (slotUpd_key c d)
        (fun p hp => by simp [slotUpd, hp])]
      exact hr
  | newConsumer =>
    refine ⟨wf_registerOp hwf, le_refl _, ?_, fun k n hk _ => Or.inl hk,
      fun k _ hn => hn⟩
    intro r hr
    exact assq_append_of_some hr
  | otherClose c hcm =>
    refine ⟨?_, le_refl _, ?_, fun k n hk _ => Or.inl hk, fun k _ hn => hn⟩
    · obtain ⟨h1, h2, h3, h4, h5⟩ := hwf
      refine ⟨h1, h2, h3, ?_, ?_⟩
      · exact List.Nodup.sublist (List.Sublist.map _ (List.filter_sublist _)) h4
      · intro k hk
        rcases List.mem_map.mp hk with ⟨q, hq, hfq⟩
        exact h5 k (List.mem_map.mpr ⟨q, List.mem_of_mem_filter hq, hfq⟩)
    · intro r hr
      show assq me (s.consumers.filter fun p => p.1 != c) = some r
      rw [assq_filter_ne_other s.consumers (fun hc => hcm hc.symm)]
      exact hr
  | markerLapse c hcm =>
    refine ⟨?_, le_refl _, ?_, fun k n hk _ => Or.inl hk, fun k _ hn => hn⟩
    · refine wf_of_eq_parts hwf rfl rfl ?_ rfl
      apply keys_map_of_key_fixed
      intro p
      unfold activeOffUpd
      by_cases hp : p.1 = c <;> simp [hp]
    · intro r hr
      show assq me (s.consumers.map (activeOffUpd c)) = some r
      rw [assq_map_other s.consumers (fun hc => hcm hc.symm)
        (fun p => by unfold activeOffUpd; by_cases hp : p.1 = c <;> simp [hp])
        (fun p hp => by simp [activeOffUpd, hp])]
      exact hr

/-- Soundness of the interference model: any window function whose effect
on each well-formed store is a finite chain of system steps by the other
actors satisfies EnvOkF. The EnvOkT hypotheses of the move theorems are
therefore met by every interference the actors of this system can
produce. -/
theorem sysChain_envOkF (me : Nat) (f : Store → Store)
    (h : ∀ s, wfStore s → Relation.ReflTransGen (SysStep me) s (f s)) :
    EnvOkF me f := by
  have key : ∀ s s1, Relation.ReflTransGen (SysStep me) s s1 → wfStore s →
      wfStore s1 ∧ s.nextSeq ≤ s1.nextSeq ∧
      (∀ r, consumerOf me s = some r → consumerOf me s1 = some r) ∧
      (∀ k n, lookupItem k s = some n → n.data ≠ "" →
         lookupItem k s1 = some n ∨ lookupItem k s1 = none) ∧
      (∀ k, k < s.nextSeq → lookupItem k s = none → lookupItem k s1 = none) := by
    intro s s1 hchain
    induction hchain with
    | refl =>
      intro hwf
      exact ⟨hwf, le_refl _, fun r hr => hr, fun k n hk _ => Or.inl hk,
        fun k _ hn => hn⟩
    | tail hab hbc ih =>
      intro hwf
      rcases ih hwf with ⟨hwfb, hnsb, hcpb, hipb, hnrb⟩
      rcases sysStep_props hbc hwfb with ⟨hwfc, hnsc, hcpc, hipc, hnrc⟩
      refine ⟨hwfc, le_trans hnsb hnsc, fun r hr => hcpc r (hcpb r hr), ?_, ?_⟩
      · intro k n hk hd
        rcases hipb k n hk hd with hb | hb
        · exact hipc k n hb hd
        · right
          apply hnrc k ?_ hb
          have hkb : k < s.nextSeq := by
            rcases hk2 : lookupItem k s with h2 | h2
            · rw [hk2] at hk
              exact absurd hk (by simp)
            · exact hwf.2.1 k (List.mem_map.mpr ⟨(k, n), by
                rw [hk2] at hk
                injection hk with hk
                exact hk ▸ assq_mem hk2, rfl⟩)
          omega
      · intro k hk hn
        exact hnrc k (by omega) (hnrb k hk hn)
  intro s hwf
  exact key s (f s) (h s hwf) hwf
